import Mathlib

/-!
Shallow embedding of the `dnatool` core of the Neurion repository
(`src/analysis.cpp`, `src/mutation.cpp`, `src/transcription.cpp`) and
verification of its specification.

Strings are modelled as `List Char`; `std::size_t` values as `Nat`;
functions that can `throw` are modelled in `Except String`, carrying the
C++ exception message.  A function that throws leaves its by-reference
argument untouched in the C++ source (every `throw` happens before any
mutation), so the `.error` result models the unchanged-sequence outcome.
-/

namespace dnatool

/-- C `toupper` in the default locale on an `unsigned char`: maps `'a'`–`'z'`
(code points 97–122) to the corresponding uppercase letter and leaves every
other character unchanged. -/
def cToUpper (c : Char) : Char :=
  if 97 ≤ c.toNat ∧ c.toNat ≤ 122 then Char.ofNat (c.toNat - 32) else c

/-! ## analysis.h / analysis.cpp -/

/-- The C++ `struct ORF` from `analysis.h`: start index, one-past-the-stop-codon end
index, and reading frame.  The C++ field `end` is a Lean keyword, hence the
escaped name. -/
structure ORF where
  start : Nat
  «end» : Nat
  frame : Nat
deriving DecidableEq, Repr

/-- The codon `rna.substr(i, 3)` uppercased character by character, exactly as
the loops in `findORFs` and `codonUsage` build it.  (`List.take 3` of the
suffix is `substr(i, 3)`; every call site guarantees `i + 3 ≤ rna.length`.) -/
def codonAt (rna : List Char) (i : Nat) : List Char :=
  ((rna.drop i).take 3).map cToUpper

/-- The constant `startCodon = "AUG"` from `findORFs`. -/
def startCodon : List Char := "AUG".data

/-- The stop-codon test `sc == "UAA" || sc == "UAG" || sc == "UGA"` from
`findORFs`. -/
def isStopCodon (sc : List Char) : Bool :=
  sc == "UAA".data || sc == "UAG".data || sc == "UGA".data

/-- Inner loop of `findORFs`: `for (j = i + 3; j + 3 <= n; j += 3)` searching
for the first in-frame stop codon; `some j` models the `break` after a hit,
`none` models falling off the end of the sequence. -/
def findStop (rna : List Char) (j : Nat) : Option Nat :=
  if _h : j + 3 ≤ rna.length then
    if isStopCodon (codonAt rna j) then some j
    else findStop rna (j + 3)
  else none
termination_by rna.length - j

/-- Outer loop body of `findORFs` for one frame:
`for (i = frame; i + 3 <= n; i += 3)`, emitting `ORF{i, j + 3, frame}` when
the codon at `i` is `AUG` and a stop is found at `j`. -/
def scanFrame (rna : List Char) (frame : Nat) (i : Nat) : List ORF :=
  if _h : i + 3 ≤ rna.length then
    (if codonAt rna i == startCodon then
      match findStop rna (i + 3) with
      | some j => [⟨i, j + 3, frame⟩]
      | none => []
    else []) ++ scanFrame rna frame (i + 3)
  else []
termination_by rna.length - i

/-- The function `findORFs` from `analysis.cpp`: scan the three reading frames in order,
appending each frame's ORFs in ascending start order. -/
def findORFs (rna : List Char) : List ORF :=
  scanFrame rna 0 0 ++ scanFrame rna 1 1 ++ scanFrame rna 2 2

/-- Reference ORF enumeration, written from the specification's words: for
each frame `f` in `0,1,2`, for each codon-aligned position
`i = f, f + 3, ...` with `i + 3 ≤ length` in ascending order
(`List.range' f ((length - f) / 3) 3` is exactly that progression), if the
codon at `i` is `AUG`, emit `{start = i, end = j + 3, frame = f}` where `j`
is the first position among `i + 3, i + 6, ...` holding an in-frame stop
codon, and emit nothing when no stop exists. -/
def refFrameORFs (rna : List Char) (f : Nat) : List ORF :=
  (List.range' f ((rna.length - f) / 3) 3).filterMap (fun i =>
    if codonAt rna i == startCodon then
      ((List.range' (i + 3) ((rna.length - (i + 3)) / 3) 3).find?
          (fun j => isStopCodon (codonAt rna j))).map (fun j => ORF.mk i (j + 3) f)
    else none)

/-- Reference algorithm for the whole sequence: ascending frame `0,1,2`, and
within a frame ascending start position. -/
def refORFs (rna : List Char) : List ORF :=
  refFrameORFs rna 0 ++ refFrameORFs rna 1 ++ refFrameORFs rna 2

/-- The RNA-alphabet test from the validation loop inside `codonUsage`:
`c == 'A' || c == 'U' || c == 'C' || c == 'G'` (applied after `toupper`). -/
def isRNABase (c : Char) : Bool :=
  c == 'A' || c == 'U' || c == 'C' || c == 'G'

/-- The inner `j = 0..2` loop of `codonUsage`: uppercase each character of the
codon in order and throw `"Invalid RNA base: "` at the first character that is
not in `{A, U, C, G}` (the message carries the uppercased character, as in the
source). -/
def normCodon : List Char → Except String (List Char)
  | [] => .ok []
  | c :: rest =>
    let u := cToUpper c
    if isRNABase u then do
      let us ← normCodon rest
      .ok (u :: us)
    else .error ("Invalid RNA base: " ++ String.mk [u])

/-- The update `++usage[codon]` on a `std::map<std::string, size_t>`: insert the key with
value `0` when absent, then increment.  The map is modelled as an association
list with unique keys; `std::map`'s key ordering is not needed by any claim,
so new keys are appended. -/
def bump : List (List Char × Nat) → List Char → List (List Char × Nat)
  | [], k => [(k, 1)]
  | (k', v) :: rest, k =>
    if k = k' then (k', v + 1) :: rest else (k', v) :: bump rest k

/-- The tally loop of `codonUsage`: `for (i = 0; i + 3 <= n; i += 3)`,
normalising and validating each codon and bumping its count. -/
def codonUsageGo (rna : List Char) (usage : List (List Char × Nat)) (i : Nat) :
    Except String (List (List Char × Nat)) :=
  if _h : i + 3 ≤ rna.length then
    match normCodon ((rna.drop i).take 3) with
    | .error e => .error e
    | .ok codon => codonUsageGo rna (bump usage codon) (i + 3)
  else .ok usage
termination_by rna.length - i

/-- The function `codonUsage` from `analysis.cpp`: throws when the length is not divisible
by 3, otherwise tallies the non-overlapping consecutive codons. -/
def codonUsage (rna : List Char) : Except String (List (List Char × Nat)) :=
  if rna.length % 3 ≠ 0 then .error "RNA length must be divisible by 3"
  else codonUsageGo rna [] 0

/-! ## mutation.h / mutation.cpp -/

/-- The function `pointMutation` from `mutation.cpp`: throws `std::out_of_range` when
`pos >= seq.size()`, otherwise `seq[pos] = newBase`. -/
def pointMutation (seq : List Char) (pos : Nat) (newBase : Char) :
    Except String (List Char) :=
  if pos ≥ seq.length then .error "Point mutation position out of range"
  else .ok (seq.set pos newBase)

/-- The function `insertion` from `mutation.cpp`: throws `std::out_of_range` when
`pos > seq.size()`, otherwise `seq.insert(pos, ins)` splices `ins` before
position `pos`. -/
def insertion (seq : List Char) (pos : Nat) (ins : List Char) :
    Except String (List Char) :=
  if pos > seq.length then .error "Insertion position out of range"
  else .ok (seq.take pos ++ ins ++ seq.drop pos)

/-- The function `deletion` from `mutation.cpp`.  The guard
`pos + length > seq.size()` is computed in `size_t`, so the sum wraps
modulo `2 ^ 64`; when the (wrapped) guard passes, `seq.erase(pos, length)`
itself throws `std::out_of_range` if `pos > seq.size()` (the standard
library's message is implementation-defined and modelled by a fixed string),
and otherwise removes `min(length, seq.size() - pos)` characters starting at
`pos`. -/
def deletion (seq : List Char) (pos : Nat) (length : Nat) :
    Except String (List Char) :=
  if (pos + length) % 2 ^ 64 > seq.length then .error "Deletion range out of range"
  else if pos > seq.length then .error "basic_string::erase: out of range"
  else .ok (seq.take pos ++ seq.drop (pos + min length (seq.length - pos)))

/-- Model of the random source used by `simulateRandomMutations`: an infinite
stream of raw draws together with a cursor.  A call
`std::uniform_int_distribution(lo, hi)(gen)` is modelled by `drawInRange`,
which maps the next raw value into `[lo, hi]` and advances the cursor; any
value the distribution can return corresponds to some stream. -/
structure RandomSource where
  stream : Nat → Nat
  cursor : Nat

/-- Draw the next value, mapped into the inclusive range `[lo, hi]`. -/
def drawInRange (g : RandomSource) (lo hi : Nat) : Nat × RandomSource :=
  (lo + g.stream g.cursor % (hi - lo + 1), ⟨g.stream, g.cursor + 1⟩)

/-- The constant `bases = "ATCG"` from `simulateRandomMutations`. -/
def bases : List Char := "ATCG".data

/-- The fragment-building loop of the `Insertion` case: draw `len` random
bases in order (`ins.push_back(bases[baseDist(gen)])`). -/
def randomFragment (g : RandomSource) : Nat → List Char × RandomSource
  | 0 => ([], g)
  | len + 1 =>
    let (b, g1) := drawInRange g 0 3
    let (rest, g2) := randomFragment g1 len
    (bases.getD b 'A' :: rest, g2)

/-- The `for (i = 0; i < numMutations; ++i)` loop of
`simulateRandomMutations`, recursing on the remaining iteration count.  Each
iteration draws a mutation type in `[0, 2]` (the `switch` is rendered as
nested `if`s on the drawn value) and a position in `[0, seq.size() - 1]`,
then dispatches to the matching primitive.  The `Nat` component of the result
counts the edits actually applied; it is verification instrumentation — the
C++ function returns `void` and exposes only the mutated string. -/
def simGo (maxIndelSize : Nat) :
    Nat → List Char → RandomSource → Except String (List Char × Nat)
  | 0, seq, _ => .ok (seq, 0)
  | k + 1, seq, g =>
    if seq.isEmpty then .ok (seq, 0)
    else
      let (ty, g1) := drawInRange g 0 2
      let (pos, g2) := drawInRange g1 0 (seq.length - 1)
      if ty = 0 then do
        let (b, g3) := drawInRange g2 0 3
        let s ← pointMutation seq pos (bases.getD b 'A')
        let (s', n) ← simGo maxIndelSize k s g3
        .ok (s', n + 1)
      else if ty = 1 then do
        let (len, g3) := drawInRange g2 1 (max 1 maxIndelSize)
        let (frag, g4) := randomFragment g3 len
        let s ← insertion seq pos frag
        let (s', n) ← simGo maxIndelSize k s g4
        .ok (s', n + 1)
      else do
        let (len, g3) := drawInRange g2 1 (max 1 maxIndelSize)
        let s ← deletion seq pos (min len (seq.length - pos))
        let (s', n) ← simGo maxIndelSize k s g3
        .ok (s', n + 1)

/-- The function `simulateRandomMutations` from `mutation.cpp`: early return (no edits)
when the sequence is empty or `numMutations == 0`, otherwise run the batch
loop.  The randomness is passed in explicitly as a `RandomSource`. -/
def simulateRandomMutations (seq : List Char) (numMutations : Nat)
    (maxIndelSize : Nat) (g : RandomSource) : Except String (List Char × Nat) :=
  if seq.isEmpty || numMutations == 0 then .ok (seq, 0)
  else simGo maxIndelSize numMutations seq g

/-! ## transcription.cpp -/

/-- One loop iteration of `transcribeDNA`: uppercase the character and map
`A↦A, T↦U, C↦C, G↦G`, throwing on anything else (the message carries the
original character, as in the source). -/
def transcribeBase (c : Char) : Except String Char :=
  match cToUpper c with
  | 'A' => .ok 'A'
  | 'T' => .ok 'U'
  | 'C' => .ok 'C'
  | 'G' => .ok 'G'
  | _ => .error ("Invalid DNA base: " ++ String.mk [c])

/-- The function `transcribeDNA` from `transcription.cpp`: map the whole string left to
right, failing at the first invalid character. -/
def transcribeDNA : List Char → Except String (List Char)
  | [] => .ok []
  | c :: rest => do
    let b ← transcribeBase c
    let bs ← transcribeDNA rest
    .ok (b :: bs)

/-- One loop iteration of `reverseTranscribe`: uppercase and map
`A↦A, U↦T, C↦C, G↦G`, throwing on anything else. -/
def reverseTranscribeBase (c : Char) : Except String Char :=
  match cToUpper c with
  | 'A' => .ok 'A'
  | 'U' => .ok 'T'
  | 'C' => .ok 'C'
  | 'G' => .ok 'G'
  | _ => .error ("Invalid RNA base: " ++ String.mk [c])

/-- The function `reverseTranscribe` from `transcription.cpp`. -/
def reverseTranscribe : List Char → Except String (List Char)
  | [] => .ok []
  | c :: rest => do
    let b ← reverseTranscribeBase c
    let bs ← reverseTranscribe rest
    .ok (b :: bs)

/-! ## Theorems -/

/-- Reduction of the `Except` monad's bind on a success value. -/
theorem okBind {α β : Type} (a : α) (f : α → Except String β) :
    (Except.ok a : Except String α) >>= f = f a := rfl

/-- C7: `pointMutation(seq, pos, base)` fails with `OutOfRange` exactly when
`pos >= length` (in particular at `pos == length`; the throw happens before
any write, so the sequence is unchanged); when `pos < length` it succeeds,
replacing exactly the character at `pos`: the length is unchanged, position
`pos` now holds `base`, and every other position is unchanged.  No alphabet
validation is applied to `base`. -/
theorem pointMutation_spec (seq : List Char) (pos : Nat) (base : Char) :
    (pos ≥ seq.length →
      pointMutation seq pos base = .error "Point mutation position out of range") ∧
    (pos < seq.length →
      pointMutation seq pos base = .ok (seq.set pos base) ∧
      (seq.set pos base).length = seq.length ∧
      (seq.set pos base)[pos]? = some base ∧
      ∀ i, i ≠ pos → (seq.set pos base)[i]? = seq[i]?) := by
  constructor
  · intro h
    simp [pointMutation, h]
  · intro h
    refine ⟨by simp [pointMutation, Nat.not_le_of_lt h], List.length_set seq pos base,
      ?_, ?_⟩
    · simp [List.getElem?_set, h]
    · intro i hi
      simp [List.getElem?_set, Ne.symm hi]

/-- Witness for C7 at a concrete input: mutating position 1 of `"AU"`
succeeds, while position 2 (`pos == length`) is out of range. -/
theorem pointMutation_spec_witness :
    pointMutation "AU".data 2 'G' = .error "Point mutation position out of range" ∧
    pointMutation "AU".data 1 'G' = .ok ("AU".data.set 1 'G') :=
  ⟨(pointMutation_spec "AU".data 2 'G').1 (by decide),
   ((pointMutation_spec "AU".data 1 'G').2 (by decide)).1⟩

/-- C8: `insertion(seq, pos, fragment)` fails with `OutOfRange` exactly when
`pos > length` (the throw happens before any write, so the sequence is
unchanged); when `pos ≤ length` — including the append case `pos == length` —
it splices `fragment` before position `pos`, and the length grows by exactly
`fragment.length`. -/
theorem insertion_spec (seq : List Char) (pos : Nat) (frag : List Char) :
    (pos > seq.length →
      insertion seq pos frag = .error "Insertion position out of range") ∧
    (pos ≤ seq.length →
      insertion seq pos frag = .ok (seq.take pos ++ frag ++ seq.drop pos) ∧
      (seq.take pos ++ frag ++ seq.drop pos).length = seq.length + frag.length) := by
  constructor
  · intro h
    simp [insertion, h]
  · intro h
    refine ⟨by simp [insertion, Nat.not_lt_of_le h], ?_⟩
    simp [List.length_take, List.length_drop]
    omega

/-- Witness for C8 at a concrete input: appending `"GGG"` at `pos == length`
succeeds and the length grows by 3; `pos == length + 1` is out of range. -/
theorem insertion_spec_witness :
    insertion "AU".data 3 "GGG".data = .error "Insertion position out of range" ∧
    insertion "AU".data 2 "GGG".data =
      .ok ("AU".data.take 2 ++ "GGG".data ++ "AU".data.drop 2) :=
  ⟨(insertion_spec "AU".data 3 "GGG".data).1 (by decide),
   ((insertion_spec "AU".data 2 "GGG".data).2 (by decide)).1⟩

/-- C4 counterexample: the claim demands an `OutOfRange` failure whenever
`pos + count > length`, over all `size_t` arguments.  But the C++ guard adds
in `size_t`: on a length-10 string with `pos = 2` and
`count = SIZE_MAX = 2 ^ 64 - 1` (`std::string::npos`), the sum wraps to `1`,
the guard `1 > 10` is false, and `erase(2, npos)` succeeds, removing only the
8 characters to the end — so `deletion` returns the 2-character remainder
even though `pos + count > length`. -/
theorem deletion_claim_counterexample :
    2 + (2 ^ 64 - 1) > ("AUCGAUCGAU".data).length ∧
    deletion "AUCGAUCGAU".data 2 (2 ^ 64 - 1) = .ok "AU".data := by
  constructor
  · decide
  · rfl

/-- C4 (amended): `deletion` with `size_t` arithmetic.  For
`size_t`-representable arguments and sequence (`pos, count, length < 2 ^ 64`):
the guard compares `(pos + count) mod 2 ^ 64` against the length and throws
`OutOfRange` exactly when the wrapped sum exceeds it (before any mutation);
if the guard passes but `pos > length`, the underlying `std::string::erase`
itself throws `out_of_range`; otherwise `erase` removes
`min(count, length - pos)` characters starting at `pos`, decreasing the
length by exactly that amount.  In the non-overflowing case
`pos + count ≤ length` this is the originally claimed behaviour: success with
exactly `count` characters removed. -/
theorem deletion_sizet_spec (seq : List Char) (pos count : Nat)
    (hp : pos < 2 ^ 64) (hc : count < 2 ^ 64) (hs : seq.length < 2 ^ 64) :
    ((pos + count) % 2 ^ 64 > seq.length →
      deletion seq pos count = .error "Deletion range out of range") ∧
    ((pos + count) % 2 ^ 64 ≤ seq.length → pos > seq.length →
      deletion seq pos count = .error "basic_string::erase: out of range") ∧
    ((pos + count) % 2 ^ 64 ≤ seq.length → pos ≤ seq.length →
      deletion seq pos count =
        .ok (seq.take pos ++ seq.drop (pos + min count (seq.length - pos))) ∧
      (seq.take pos ++ seq.drop (pos + min count (seq.length - pos))).length =
        seq.length - min count (seq.length - pos)) ∧
    (pos + count ≤ seq.length →
      deletion seq pos count = .ok (seq.take pos ++ seq.drop (pos + count)) ∧
      (seq.take pos ++ seq.drop (pos + count)).length = seq.length - count) := by
  refine ⟨?_, ?_, ?_, ?_⟩
  · intro h
    norm_num at h
    simp [deletion, h]
  · intro hg hp2
    norm_num at hg
    simp [deletion, Nat.not_lt_of_le hg, hp2]
  · intro hg hp2
    refine ⟨?_, ?_⟩
    · norm_num at hg
      simp [deletion, Nat.not_lt_of_le hg, Nat.not_lt_of_le hp2]
    · simp [List.length_take, List.length_drop]
      omega
  · intro hin
    have hmin : min count (seq.length - pos) = count := by omega
    have hle2 : (pos + count) % 2 ^ 64 ≤ seq.length :=
      le_trans (Nat.mod_le _ _) hin
    norm_num at hle2
    refine ⟨?_, ?_⟩
    · simp [deletion, hmin, Nat.not_lt_of_le hle2,
        show ¬ (pos > seq.length) by omega]
    · simp [List.length_take, List.length_drop]
      omega

/-- Witness for the amended C4 at concrete inputs: deleting 2 characters at
position 1 of `"AUCG"` succeeds via the no-overflow case (length 4 → 2);
deleting 4 characters there fails the (non-wrapping) guard. -/
theorem deletion_sizet_spec_witness :
    deletion "AUCG".data 1 4 = .error "Deletion range out of range" ∧
    deletion "AUCG".data 1 2 = .ok ("AUCG".data.take 1 ++ "AUCG".data.drop 3) :=
  ⟨(deletion_sizet_spec "AUCG".data 1 4 (by decide) (by decide) (by decide)).1
      (by decide),
   ((deletion_sizet_spec "AUCG".data 1 2 (by decide) (by decide)
      (by decide)).2.2.2 (by decide)).1⟩

/-- Every uppercase DNA base transcribes to an RNA base that
reverse-transcribes back to it (`A↦A↦A`, `T↦U↦T`, `C↦C↦C`, `G↦G↦G`). -/
theorem transcribeBase_roundTrip (c : Char)
    (h : c = 'A' ∨ c = 'T' ∨ c = 'C' ∨ c = 'G') :
    ∃ b, transcribeBase c = .ok b ∧ reverseTranscribeBase b = .ok c := by
  rcases h with h | h | h | h <;> subst h
  · exact ⟨'A', rfl, rfl⟩
  · exact ⟨'U', rfl, rfl⟩
  · exact ⟨'C', rfl, rfl⟩
  · exact ⟨'G', rfl, rfl⟩

/-- C9: for every valid uppercase DNA string, `transcribeDNA` succeeds and
`reverseTranscribe` of its result gives back the original string — the
DNA→RNA→DNA round trip is the identity. -/
theorem reverseTranscribe_transcribeDNA_id :
    ∀ dna : List Char, (∀ c ∈ dna, c = 'A' ∨ c = 'T' ∨ c = 'C' ∨ c = 'G') →
    ∃ rna, transcribeDNA dna = .ok rna ∧ reverseTranscribe rna = .ok dna := by
  intro dna
  induction dna with
  | nil => exact fun _ => ⟨[], rfl, rfl⟩
  | cons c rest ih =>
    intro h
    obtain ⟨rna', h1, h2⟩ := ih (fun x hx => h x (List.mem_cons_of_mem c hx))
    obtain ⟨b, hb1, hb2⟩ := transcribeBase_roundTrip c (h c (List.mem_cons_self c rest))
    refine ⟨b :: rna', ?_, ?_⟩
    · simp [transcribeDNA, hb1, h1, okBind]
    · simp [reverseTranscribe, hb2, h2, okBind]

/-- Witness for C9 at the concrete input `"ATCG"`. -/
theorem reverseTranscribe_transcribeDNA_id_witness :
    ∃ rna, transcribeDNA "ATCG".data = .ok rna ∧
      reverseTranscribe rna = .ok "ATCG".data :=
  reverseTranscribe_transcribeDNA_id "ATCG".data (by decide)

/-- Every `drawInRange` result lands in the requested inclusive range. -/
theorem drawInRange_bounds (g : RandomSource) (lo hi : Nat) (h : lo ≤ hi) :
    lo ≤ (drawInRange g lo hi).1 ∧ (drawInRange g lo hi).1 ≤ hi := by
  have hm : g.stream g.cursor % (hi - lo + 1) < hi - lo + 1 :=
    Nat.mod_lt _ (by omega)
  unfold drawInRange
  constructor
  · omega
  · simp only
    omega

/-- The batch loop applies at most as many edits as remaining iterations and
never fails: every generated position is in `[0, length - 1]`, insertions use
that in-bounds position, and deletion lengths are clamped to `length - pos`,
so the primitive calls always take their `.ok` branch. -/
theorem simGo_ok (m : Nat) :
    ∀ (k : Nat) (seq : List Char) (g : RandomSource),
    ∃ s n, simGo m k seq g = .ok (s, n) ∧ n ≤ k := by
  intro k
  induction k with
  | zero => exact fun seq g => ⟨seq, 0, rfl, Nat.le_refl 0⟩
  | succ k ih =>
    intro seq g
    by_cases he : seq.isEmpty
    · exact ⟨seq, 0, by simp [simGo, he], Nat.zero_le _⟩
    · have hlen : 0 < seq.length := by
        cases seq with
        | nil => simp at he
        | cons a l => simp
      rcases hty : drawInRange g 0 2 with ⟨ty, g1⟩
      rcases hpos : drawInRange g1 0 (seq.length - 1) with ⟨pos, g2⟩
      have hposlt : pos < seq.length := by
        have hb := (drawInRange_bounds g1 0 (seq.length - 1) (Nat.zero_le _)).2
        rw [hpos] at hb
        omega
      by_cases ht0 : ty = 0
      · rcases hbse : drawInRange g2 0 3 with ⟨b, g3⟩
        obtain ⟨s', n, hs, hn⟩ := ih (seq.set pos (bases.getD b 'A')) g3
        refine ⟨s', n + 1, ?_, by omega⟩
        simp only [List.getD_eq_getElem?_getD] at hs
        simp [simGo, he, hty, hpos, ht0, hbse, pointMutation,
          Nat.not_le_of_lt hposlt, okBind, hs]
      · by_cases ht1 : ty = 1
        · rcases hlend : drawInRange g2 1 (max 1 m) with ⟨len, g3⟩
          rcases hfrag : randomFragment g3 len with ⟨frag, g4⟩
          obtain ⟨s', n, hs, hn⟩ :=
            ih (seq.take pos ++ frag ++ seq.drop pos) g4
          refine ⟨s', n + 1, ?_, by omega⟩
          simp only [List.append_assoc] at hs
          simp [simGo, he, hty, hpos, ht0, ht1, hlend, hfrag, insertion,
            Nat.not_lt_of_le (Nat.le_of_lt hposlt), okBind, hs]
        · rcases hlend : drawInRange g2 1 (max 1 m) with ⟨len, g3⟩
          obtain ⟨s', n, hs, hn⟩ :=
            ih (seq.take pos ++ seq.drop (pos + min len (seq.length - pos))) g3
          refine ⟨s', n + 1, ?_, by omega⟩
          have hle : (pos + min len (seq.length - pos)) % 2 ^ 64 ≤ seq.length := by
            have h1 := Nat.mod_le (pos + min len (seq.length - pos)) (2 ^ 64)
            omega
          norm_num at hle
          have hg := Nat.not_lt_of_le hle
          have hp2 : ¬ (pos > seq.length) := by omega
          have hmin : min (min len (seq.length - pos)) (seq.length - pos) =
              min len (seq.length - pos) := by omega
          simp [simGo, he, hty, hpos, ht0, ht1, hlend, deletion, hg, hp2, hmin,
            okBind, hs]

/-- C2: `simulateRandomMutations` is a no-op when the sequence is empty or
`numMutations = 0`; in every case it returns successfully — no internal call
to `pointMutation`, `insertion`, or `deletion` ever reaches its `OutOfRange`
branch, for any random draws — applying at most `numMutations` edits (the
count also covers the early `break` when the sequence becomes empty
mid-loop). -/
theorem simulateRandomMutations_safe (seq : List Char) (numMutations : Nat)
    (maxIndelSize : Nat) (g : RandomSource) :
    ((seq = [] ∨ numMutations = 0) →
      simulateRandomMutations seq numMutations maxIndelSize g = .ok (seq, 0)) ∧
    (∃ s n, simulateRandomMutations seq numMutations maxIndelSize g = .ok (s, n) ∧
      n ≤ numMutations) := by
  constructor
  · rintro (h | h) <;> subst h <;> simp [simulateRandomMutations]
  · by_cases h : seq.isEmpty || numMutations == 0
    · exact ⟨seq, 0, by simp [simulateRandomMutations, h], Nat.zero_le _⟩
    · obtain ⟨s, n, hs, hn⟩ := simGo_ok maxIndelSize numMutations seq g
      exact ⟨s, n, by simp [simulateRandomMutations, h, hs], hn⟩

/-- Witness for C2: a no-op on the empty sequence (with 5 requested
mutations), and a successful bounded run on `"AU"` under the all-zeros random
stream. -/
theorem simulateRandomMutations_safe_witness :
    simulateRandomMutations [] 5 3 ⟨fun _ => 0, 0⟩ = .ok ([], 0) ∧
    ∃ s n, simulateRandomMutations "AU".data 2 3 ⟨fun _ => 0, 0⟩ = .ok (s, n) ∧
      n ≤ 2 :=
  ⟨(simulateRandomMutations_safe [] 5 3 ⟨fun _ => 0, 0⟩).1 (Or.inl rfl),
   (simulateRandomMutations_safe "AU".data 2 3 ⟨fun _ => 0, 0⟩).2⟩

/-- C3 demonstration: a concrete run of the batch driver on `"A"` with one
requested mutation applies exactly one edit, and its entire observable output
is the mutated sequence — the `Nat` edit counter here is verification
instrumentation; the C++ `simulateRandomMutations` returns `void`, exposes
only the mutated string, and constructs no `MutationRecord` values
(`serializeMutationMap` in `io.cpp` has no caller anywhere in the
repository). -/
theorem simulateRandomMutations_produces_no_records :
    simulateRandomMutations "A".data 1 3 ⟨fun _ => 0, 0⟩ = .ok ("A".data, 1) :=
  rfl

/-- Round trip: `Char.ofNat` followed by `Char.toNat` is the identity on code points below the surrogate range. -/
theorem charOfNat_toNat (n : Nat) (h : n < 55296) : (Char.ofNat n).toNat = n := by
  have hv : n.isValidChar := Or.inl h
  unfold Char.ofNat
  rw [dif_pos hv]
  unfold Char.ofNatAux Char.toNat
  simp [UInt32.toNat, BitVec.toNat_ofNatLt]

/-- Idempotence of `cToUpper`: an uppercased character is never in `'a'`–`'z'`
again. -/
theorem cToUpper_idem (c : Char) : cToUpper (cToUpper c) = cToUpper c := by
  unfold cToUpper
  by_cases h : 97 ≤ c.toNat ∧ c.toNat ≤ 122
  · rw [if_pos h]
    have ht : (Char.ofNat (c.toNat - 32)).toNat = c.toNat - 32 :=
      charOfNat_toNat _ (by omega)
    rw [if_neg]
    rw [ht]
    omega
  · rw [if_neg h, if_neg h]

/-- Codon extraction is insensitive to pre-uppercasing the sequence, because
`findORFs` uppercases every codon it inspects. -/
theorem codonAt_map_cToUpper (rna : List Char) (i : Nat) :
    codonAt (rna.map cToUpper) i = codonAt rna i := by
  unfold codonAt
  rw [← List.map_drop, ← List.map_take, List.map_map]
  have : cToUpper ∘ cToUpper = cToUpper := funext cToUpper_idem
  rw [this]

/-- The inner stop-codon loop visits exactly the codon-aligned progression
`j, j + 3, ...` (while `j + 3 ≤ length`) and returns its first stop codon:
it equals `find?` over `List.range' j ((length - j) / 3) 3`. -/
theorem findStop_eq_find? (rna : List Char) :
    ∀ j, findStop rna j =
      (List.range' j ((rna.length - j) / 3) 3).find?
        (fun k => isStopCodon (codonAt rna k)) := by
  intro j
  induction j using findStop.induct rna with
  | case1 j h hstop =>
    rw [findStop]
    rw [dif_pos h, if_pos hstop]
    have h3 : 3 ≤ rna.length - j := by omega
    have hdiv : (rna.length - j) / 3 = (rna.length - (j + 3)) / 3 + 1 := by
      rw [Nat.div_eq]
      simp [h3, Nat.sub_sub]
    rw [hdiv, List.range'_succ, List.find?_cons, hstop]
  | case2 j h hstop ih =>
    have heq : isStopCodon (codonAt rna j) = false := by simpa using hstop
    rw [findStop]
    rw [dif_pos h, if_neg hstop, ih]
    have h3 : 3 ≤ rna.length - j := by omega
    have hdiv : (rna.length - j) / 3 = (rna.length - (j + 3)) / 3 + 1 := by
      rw [Nat.div_eq]
      simp [h3, Nat.sub_sub]
    rw [hdiv, List.range'_succ, List.find?_cons, heq]
  | case3 j h =>
    rw [findStop]
    rw [dif_neg h]
    have hdiv : (rna.length - j) / 3 = 0 := Nat.div_eq_of_lt (by omega)
    rw [hdiv]
    rfl

/-- The outer per-frame loop visits exactly the codon-aligned progression
`i, i + 3, ...` (while `i + 3 ≤ length`) and emits one ORF per start codon
with an in-frame stop: it equals `filterMap` over
`List.range' i ((length - i) / 3) 3`. -/
theorem scanFrame_eq_filterMap (rna : List Char) (f : Nat) :
    ∀ i, scanFrame rna f i =
      (List.range' i ((rna.length - i) / 3) 3).filterMap (fun i' =>
        if codonAt rna i' == startCodon then
          (findStop rna (i' + 3)).map (fun j => ORF.mk i' (j + 3) f)
        else none) := by
  intro i
  induction i using scanFrame.induct rna f with
  | case1 i h ih =>
    rw [scanFrame]
    rw [dif_pos h, ih]
    have h3 : 3 ≤ rna.length - i := by omega
    have hdiv : (rna.length - i) / 3 = (rna.length - (i + 3)) / 3 + 1 := by
      rw [Nat.div_eq]
      simp [h3, Nat.sub_sub]
    rw [hdiv, List.range'_succ, List.filterMap_cons]
    by_cases hst : codonAt rna i == startCodon
    · cases hfs : findStop rna (i + 3) with
      | none => simp [hst, hfs]
      | some j => simp [hst, hfs]
    · simp [hst]
  | case2 i h =>
    rw [scanFrame]
    rw [dif_neg h]
    have hdiv : (rna.length - i) / 3 = 0 := Nat.div_eq_of_lt (by omega)
    rw [hdiv]
    rfl

/-- The scanner `findORFs` computes exactly the reference enumeration `refORFs`. -/
theorem findORFs_eq_refORFs (rna : List Char) : findORFs rna = refORFs rna := by
  have hframe : ∀ f, refFrameORFs rna f = scanFrame rna f f := by
    intro f
    rw [scanFrame_eq_filterMap]
    unfold refFrameORFs
    simp only [findStop_eq_find?]
  unfold findORFs refORFs
  rw [hframe 0, hframe 1, hframe 2]

/-- C1: for every input string, `findORFs` returns exactly the list of ORFs
produced by the reference algorithm of the specification — for each frame
`f = 0, 1, 2` in that order, for each codon-aligned start `i = f, f + 3, ...`
with `i + 3 ≤ length` in ascending order, an ORF `{start = i, end = j + 3,
frame = f}` whenever the codon at `i` is `AUG` and `j` is the first in-frame
stop-codon position after it, nothing when no stop exists; the outer scan
always continues from `i + 3`, so overlapping ORFs sharing a stop codon are
all reported. -/
theorem findORFs_matches_reference (rna : List Char) :
    findORFs rna = refORFs rna :=
  findORFs_eq_refORFs rna

/-- Every ORF produced for frame `f < 3` satisfies the structural
invariants. -/
theorem refFrameORFs_invariants (rna : List Char) (f : Nat) (hf : f < 3)
    (o : ORF) (h : o ∈ refFrameORFs rna f) :
    o.start < o.«end» ∧ o.«end» ≤ rna.length ∧
      (o.«end» - o.start) % 3 = 0 ∧ o.frame = o.start % 3 := by
  unfold refFrameORFs at h
  rw [List.mem_filterMap] at h
  obtain ⟨i, hi, hemit⟩ := h
  rw [List.mem_range'] at hi
  obtain ⟨t, _ht, hit⟩ := hi
  by_cases hst : codonAt rna i == startCodon
  · rw [if_pos hst] at hemit
    rw [Option.map_eq_some'] at hemit
    obtain ⟨j, hj, ho⟩ := hemit
    have hjmem := List.mem_of_find?_eq_some hj
    rw [List.mem_range'] at hjmem
    obtain ⟨u, hu, hju⟩ := hjmem
    have hub : (u + 1) * 3 ≤ rna.length - (i + 3) :=
      (Nat.le_div_iff_mul_le (by omega)).mp (by omega)
    subst ho
    have hgoal : i < j + 3 ∧ j + 3 ≤ rna.length ∧ (j + 3 - i) % 3 = 0 ∧
        f = i % 3 := ⟨by omega, by omega, by omega, by omega⟩
    exact hgoal
  · rw [if_neg hst] at hemit
    exact absurd hemit (by simp)

/-- C5: every ORF record returned by `findORFs` satisfies
`0 ≤ start < end ≤ rna.length`, `end - start` divisible by 3, and
`frame = start % 3`. -/
theorem findORFs_invariants (rna : List Char) (o : ORF)
    (h : o ∈ findORFs rna) :
    o.start < o.«end» ∧ o.«end» ≤ rna.length ∧
      (o.«end» - o.start) % 3 = 0 ∧ o.frame = o.start % 3 := by
  rw [findORFs_eq_refORFs] at h
  unfold refORFs at h
  rw [List.mem_append, List.mem_append] at h
  rcases h with (h | h) | h
  · exact refFrameORFs_invariants rna 0 (by omega) o h
  · exact refFrameORFs_invariants rna 1 (by omega) o h
  · exact refFrameORFs_invariants rna 2 (by omega) o h

/-- Witness for C5: the single ORF of `"AUGUUUUAA"` satisfies the
invariants. -/
theorem findORFs_invariants_witness :
    (ORF.mk 0 9 0).start < (ORF.mk 0 9 0).«end» ∧
    (ORF.mk 0 9 0).«end» ≤ ("AUGUUUUAA".data).length ∧
    ((ORF.mk 0 9 0).«end» - (ORF.mk 0 9 0).start) % 3 = 0 ∧
    (ORF.mk 0 9 0).frame = (ORF.mk 0 9 0).start % 3 :=
  findORFs_invariants "AUGUUUUAA".data (ORF.mk 0 9 0)
    (by rw [findORFs_eq_refORFs]; decide)

/-- C10: `findORFs` is a total function — it performs no alphabet validation
and can never fail.  Matching is case-insensitive: uppercasing the input
first changes nothing (every inspected codon is uppercased by the scanner),
so lowercase `aug`/stop codons are recognised; and characters outside the RNA
alphabet (here `x` and `?`) simply never form part of a matched start or stop
codon instead of raising an error. -/
theorem findORFs_total_case_insensitive :
    (∀ rna : List Char, findORFs (rna.map cToUpper) = findORFs rna) ∧
    findORFs "augxx?uaa".data = [ORF.mk 0 9 0] := by
  constructor
  · intro rna
    rw [findORFs_eq_refORFs, findORFs_eq_refORFs]
    unfold refORFs refFrameORFs
    simp only [codonAt_map_cToUpper, List.length_map]
  · rw [findORFs_eq_refORFs]
    decide

/-- Validation succeeds: `normCodon` succeeds on a codon of valid (case-insensitive) RNA
characters, returning the uppercased codon. -/
theorem normCodon_ok :
    ∀ l : List Char, (∀ c ∈ l, isRNABase (cToUpper c) = true) →
    normCodon l = .ok (l.map cToUpper) := by
  intro l
  induction l with
  | nil => exact fun _ => rfl
  | cons c rest ih =>
    intro h
    have hc := h c (List.mem_cons_self c rest)
    have hr := ih (fun x hx => h x (List.mem_cons_of_mem c hx))
    simp [normCodon, hc, hr, okBind]

/-- Bumping a key increases the total of the counts by exactly one. -/
theorem bump_sum :
    ∀ (u : List (List Char × Nat)) (k : List Char),
    ((bump u k).map Prod.snd).sum = (u.map Prod.snd).sum + 1 := by
  intro u
  induction u with
  | nil => intro k; rfl
  | cons p rest ih =>
    intro k
    rcases p with ⟨k', v⟩
    by_cases h : k = k'
    · simp [bump, h]
      omega
    · simp [bump, h, ih]
      omega

/-- A key of `bump u k` is a key of `u` or `k` itself. -/
theorem bump_keys_mem :
    ∀ (u : List (List Char × Nat)) (k a : List Char),
    a ∈ (bump u k).map Prod.fst → a ∈ u.map Prod.fst ∨ a = k := by
  intro u
  induction u with
  | nil =>
    intro k a h
    simp [bump] at h
    exact Or.inr h
  | cons p rest ih =>
    intro k a h
    rcases p with ⟨k', v⟩
    by_cases hk : k = k'
    · simp only [bump] at h
      rw [if_pos hk] at h
      rw [List.map_cons, List.mem_cons] at h
      rw [List.map_cons, List.mem_cons]
      rcases h with h | h
      · exact Or.inl (Or.inl h)
      · exact Or.inl (Or.inr h)
    · simp only [bump] at h
      rw [if_neg hk] at h
      rw [List.map_cons, List.mem_cons] at h
      rw [List.map_cons, List.mem_cons]
      rcases h with h | h
      · exact Or.inl (Or.inl h)
      · rcases ih k a h with h' | h'
        · exact Or.inl (Or.inr h')
        · exact Or.inr h'

/-- Bumping preserves distinctness of the keys. -/
theorem bump_keys_nodup :
    ∀ (u : List (List Char × Nat)) (k : List Char),
    (u.map Prod.fst).Nodup → ((bump u k).map Prod.fst).Nodup := by
  intro u
  induction u with
  | nil => intro k _; simp [bump]
  | cons p rest ih =>
    intro k h
    rcases p with ⟨k', v⟩
    rw [List.map_cons, List.nodup_cons] at h
    by_cases hk : k = k'
    · simp only [bump]
      rw [if_pos hk, List.map_cons, List.nodup_cons]
      exact h
    · simp only [bump]
      rw [if_neg hk, List.map_cons, List.nodup_cons]
      refine ⟨?_, ih k h.2⟩
      intro hmem
      rcases bump_keys_mem rest k _ hmem with h' | h'
      · exact h.1 h'
      · exact hk h'.symm

/-- Bumping preserves the all-keys-length-3 invariant when the new key has
length 3. -/
theorem bump_keys_len (u : List (List Char × Nat)) (k : List Char)
    (hu : ∀ a ∈ u.map Prod.fst, a.length = 3) (hk : k.length = 3) :
    ∀ a ∈ (bump u k).map Prod.fst, a.length = 3 := by
  intro a ha
  rcases bump_keys_mem u k a ha with h | h
  · exact hu a h
  · rw [h]; exact hk

/-- The tally loop of `codonUsage` succeeds on a sequence of valid
(case-insensitive) RNA characters and adds exactly one count per remaining
codon — `(length - i) / 3` in total — while preserving key distinctness and
key length 3. -/
theorem codonUsageGo_spec (rna : List Char)
    (hval : ∀ c ∈ rna, isRNABase (cToUpper c) = true)
    (i : Nat) (usage : List (List Char × Nat))
    (hkeys : ∀ a ∈ usage.map Prod.fst, a.length = 3)
    (hnd : (usage.map Prod.fst).Nodup) :
    ∃ u, codonUsageGo rna usage i = .ok u ∧
      (u.map Prod.snd).sum = (usage.map Prod.snd).sum + (rna.length - i) / 3 ∧
      (u.map Prod.fst).Nodup ∧ ∀ a ∈ u.map Prod.fst, a.length = 3 := by
  by_cases h : i + 3 ≤ rna.length
  · have hcchars : ∀ c ∈ (rna.drop i).take 3, isRNABase (cToUpper c) = true :=
      fun c hc => hval c (List.drop_subset i rna (List.take_subset 3 _ hc))
    have hnc := normCodon_ok _ hcchars
    have hclen : (((rna.drop i).take 3).map cToUpper).length = 3 := by
      simp [List.length_take, List.length_drop]
      omega
    obtain ⟨u, hu, hsum, hnd', hk'⟩ :=
      codonUsageGo_spec rna hval (i + 3)
        (bump usage (((rna.drop i).take 3).map cToUpper))
        (bump_keys_len _ _ hkeys hclen) (bump_keys_nodup _ _ hnd)
    refine ⟨u, ?_, ?_, hnd', hk'⟩
    · rw [codonUsageGo, dif_pos h, hnc]
      exact hu
    · rw [hsum, bump_sum]
      have h3 : 3 ≤ rna.length - i := by omega
      have hdiv : (rna.length - i) / 3 = (rna.length - (i + 3)) / 3 + 1 := by
        rw [Nat.div_eq]
        simp [h3, Nat.sub_sub]
      omega
  · refine ⟨usage, ?_, ?_, hnd, hkeys⟩
    · rw [codonUsageGo, dif_neg h]
    · have hdiv : (rna.length - i) / 3 = 0 := Nat.div_eq_of_lt (by omega)
      omega
termination_by rna.length - i

/-- C6: for every RNA sequence over `{A, U, C, G}` (case-insensitive) whose
length is a multiple of 3, `codonUsage` succeeds, the counts sum to
`length / 3`, the keys are distinct, and every key is a 3-character codon
(each count is a `Nat`, hence non-negative). -/
theorem codonUsage_props (rna : List Char)
    (hlen : rna.length % 3 = 0)
    (hval : ∀ c ∈ rna, isRNABase (cToUpper c) = true) :
    ∃ usage, codonUsage rna = .ok usage ∧
      (usage.map Prod.snd).sum = rna.length / 3 ∧
      (usage.map Prod.fst).Nodup ∧
      ∀ a ∈ usage.map Prod.fst, a.length = 3 := by
  obtain ⟨u, hu, hsum, hnd, hk⟩ :=
    codonUsageGo_spec rna hval 0 [] (by simp) (by simp)
  refine ⟨u, ?_, ?_, hnd, hk⟩
  · simp [codonUsage, hlen, hu]
  · simpa using hsum

/-- Witness for C6 at the concrete input `"AUGaug"` (length 6, mixed case):
the counts sum to 2. -/
theorem codonUsage_props_witness :
    ∃ usage, codonUsage "AUGaug".data = .ok usage ∧
      (usage.map Prod.snd).sum = ("AUGaug".data).length / 3 ∧
      (usage.map Prod.fst).Nodup ∧
      ∀ a ∈ usage.map Prod.fst, a.length = 3 :=
  codonUsage_props "AUGaug".data (by decide) (by decide)

end dnatool
